import Mathlib

/-!
# s3-upload-folder: a verification development for `main.go`

The program walks a folder, streams every non-directory path over an
unbuffered channel to the main goroutine, which starts one upload goroutine per
path behind a counting semaphore, collects failures in a buffered error
channel and prints them at the end.

The development has three layers.

* Path and content-type computations of `uploadFile` (lines 51-67).  The
  calls into Go's `path/filepath` and `strings` packages are embedded by their
  behaviour on a Unix-like host (`filepath.Separator = '/'`, no volume names).
* Start-up validation of `main` (lines 94-111).
* The goroutine pipeline of `main`, `streamFiles` and `uploadFile`
  (lines 20-48, 69-81, 113-151) as an interleaving transition system: one
  program counter per goroutine, the channels `fileCh`, `errCh`, `sem` and the
  two wait groups as shared state, and one step per synchronisation point.

Strings are lists of characters; all separators involved are ASCII.
-/

namespace S3Upload

/-- Go strings, as character lists. -/
abbrev Str := List Char

/-- The backslash character. -/
def backslash : Char := Char.ofNat 92

/-! ## `path/filepath` on a Unix-like host -/

/-- Pieces of a path between separators (`strings.Split(path, "/")`). -/
def splitSlash : Str → List Str
  | [] => [[]]
  | c :: cs =>
    if c = '/' then [] :: splitSlash cs
    else
      match splitSlash cs with
      | h :: t => (c :: h) :: t
      | [] => [[c]]

/-- Concatenation with `/` between the pieces (`strings.Join(elem, "/")`). -/
def joinSlash : List Str → Str
  | [] => []
  | [c] => c
  | c :: d :: rest => c ++ '/' :: joinSlash (d :: rest)

/-- One round of the element loop of `filepath.Clean`.  `stack` holds the
elements written to the output buffer so far, last written first.

* an empty element and `.` are skipped;
* `..` removes the last written element when there is one that is not itself
  `..` (`out.w > dotdot`); otherwise it is dropped on a rooted path and
  appended on a relative one;
* any other element is appended. -/
def pushComp (rooted : Bool) (stack : List Str) (c : Str) : List Str :=
  if c = [] ∨ c = ['.'] then stack
  else if c = ['.', '.'] then
    match stack with
    | [] => if rooted then [] else [c]
    | top :: rest => if top = ['.', '.'] then c :: stack else rest
  else c :: stack

/-- Elements that `filepath.Clean` leaves in its output buffer, in order. -/
def cleanElems (rooted : Bool) (path : Str) : List Str :=
  ((splitSlash path).foldl (pushComp rooted) []).reverse

/-- Rendering of the output buffer of `filepath.Clean`: a leading separator on
a rooted path, `.` for an empty relative result. -/
def renderPath (rooted : Bool) (elems : List Str) : Str :=
  if rooted then '/' :: joinSlash elems
  else if elems = [] then ['.'] else joinSlash elems

/-- Does the path start with the separator (`len(path) > 0 && path[0] == '/'`). -/
def isRooted : Str → Bool
  | [] => false
  | c :: _ => decide (c = '/')

/-- Go `filepath.Clean`. -/
def Clean (path : Str) : Str :=
  if path = [] then ['.']
  else renderPath (isRooted path) (cleanElems (isRooted path) path)

/-- Go `filepath.Join`: leading empty elements are ignored, the rest is joined
with the separator and cleaned; all elements empty gives the empty string. -/
def Join (elem : List Str) : Str :=
  match elem.dropWhile (fun e => decide (e = [])) with
  | [] => []
  | e :: rest => Clean (joinSlash (e :: rest))

/-- Elements of a cleaned path as `filepath.Rel` compares them: the runs
between separators, with an empty first element for a rooted path and no
element after a final separator (so `/` has the empty element alone and the
empty string has none). -/
def elemsOf : Str → List Str
  | [] => []
  | c :: cs =>
    if c = '/' then [] :: elemsOf cs
    else
      match elemsOf cs with
      | h :: t => (c :: h) :: t
      | [] => [[c]]

/-- The comparison of `filepath.Rel`: skips the leading elements the base and
the target share, and returns what is left of the base and of the target. -/
def stripCommon : List Str → List Str → List Str × List Str
  | b :: bs, t :: ts => if t = b then stripCommon bs ts else (b :: bs, t :: ts)
  | bs, ts => (bs, ts)

/-- Go `filepath.Rel`, by its behaviour; `none` stands for the returned error.
Both paths are cleaned; equal paths give `.`; a cleaned path `.` has no
elements.  A rooted and a relative path cannot be related.  After the shared
leading elements, an element `..` left in the base is an error (the result
would depend on the current directory: `Rel("..", "a")`, `Rel("../..", "..")`);
otherwise the result climbs one `..` per element left in the base and then
descends through what is left of the target. -/
def Rel (basepath targpath : Str) : Option Str :=
  let base := Clean basepath
  let targ := Clean targpath
  if targ = base then some ['.']
  else
    let base := if base = ['.'] then [] else base
    let targ := if targ = ['.'] then [] else targ
    if isRooted base != isRooted targ then none
    else
      match stripCommon (elemsOf base) (elemsOf targ) with
      | (b :: bs, ts) =>
        if b = ['.', '.'] then none
        else some (joinSlash (List.replicate (b :: bs).length ['.', '.'] ++ ts))
      | ([], ts) => some (joinSlash ts)

/-- The scan of `filepath.Ext`, from the last character backwards: `rev` is
what is still to the left (nearest first), `suffix` what has been passed. -/
def extScan : Str → Str → Str
  | [], _ => []
  | c :: rev, suffix =>
    if c = '/' then []
    else if c = '.' then c :: suffix
    else extScan rev (c :: suffix)

/-- Go `filepath.Ext`: the suffix beginning at the final dot in the final
element of the path, empty if there is no dot. -/
def Ext (path : Str) : Str := extScan path.reverse []

/-- Go `strings.ReplaceAll(s, "\\", "/")`. -/
def replaceBackslash (s : Str) : Str :=
  s.map (fun c => if c = backslash then '/' else c)

/-! ## `uploadFile`: key and content type -/

/-- The default content type of line 66. -/
def defaultContentType : Str := "application/octet-stream".toList

/-- Lines 52-60: the destination key, `none` when `filepath.Rel` fails. -/
def destinationKey (keyPrefix baseDir filePath : Str) : Option Str :=
  match Rel baseDir filePath with
  | none => none
  | some relativePath => some (replaceBackslash (Join [keyPrefix, relativePath]))

/-- Lines 63-67: the content type; `typeByExtension` is `mime.TypeByExtension`. -/
def contentTypeOf (typeByExtension : Str → Str) (filePath : Str) : Str :=
  let contentType := typeByExtension (Ext filePath)
  if contentType = [] then defaultContentType else contentType

/-- A file or directory name as `filepath.Walk` reads it from a directory: not
empty, no separator, neither `.` nor `..`. -/
def IsName (c : Str) : Prop := c ≠ [] ∧ '/' ∉ c ∧ c ≠ ['.'] ∧ c ≠ ['.', '.']

instance (c : Str) : Decidable (IsName c) := by
  unfold IsName
  infer_instance

/-- The path `filepath.Walk` passes to the walk function for the entry reached
from `root` through the directory entries `names`: at each level the path is
`filepath.Join(parent, name)`. -/
def walkPath (root : Str) (names : List Str) : Str :=
  names.foldl (fun parent name => Join [parent, name]) root

/-- Shape of the output buffer of `Clean`, last element first: names on top of
a run of `..` elements, which only a relative path can have. -/
def OkStack (rooted : Bool) : List Str → Prop
  | [] => True
  | c :: rest =>
    (IsName c ∧ OkStack rooted rest)
      ∨ (c = ['.', '.'] ∧ rooted = false ∧ ∀ d ∈ rest, d = ['.', '.'])

/-- The empty element the comparison loop of `Rel` sees in front of the leading
separator of a rooted path. -/
def rootMark (rooted : Bool) : List Str := if rooted then [[]] else []

/-! ## Configuration and start-up (lines 85-111) -/

/-- The command-line options of lines 85-92. -/
structure Config where
  accessKeyId : Str
  secretAccessKey : Str
  region : Str
  endpoint : Str
  bucket : Str
  folder : Str
  keyPrefix : Str
  workers : Int
  deriving DecidableEq

/-- The condition of line 96. -/
def missingRequired (cfg : Config) : Bool :=
  decide (cfg.accessKeyId = []) || decide (cfg.secretAccessKey = [])
    || decide (cfg.bucket = []) || decide (cfg.folder = [])

/-- What `main` does between `flag.Parse` and the first channel, in order. -/
inductive StartupAction
  /-- Line 97: `log.Fatal`, the process exits with status 1. -/
  | fatalMissingParameters
  /-- Line 101: `session.NewSession` is called. -/
  | newSession (region accessKeyId secretAccessKey endpoint : Str)
  /-- Line 108: `log.Fatalf`, the process exits with status 1. -/
  | fatalSession
  /-- Line 111 onwards: the client exists and the pipeline is set up. -/
  | startPipeline (folder : Str)
  deriving DecidableEq

/-- Lines 94-111 of `main`; `sessionFails` says whether `session.NewSession`
returns an error for this configuration. -/
def startup (sessionFails : Config → Bool) (cfg : Config) : List StartupAction :=
  if missingRequired cfg then [StartupAction.fatalMissingParameters]
  else
    StartupAction.newSession cfg.region cfg.accessKeyId cfg.secretAccessKey cfg.endpoint ::
      (if sessionFails cfg then [StartupAction.fatalSession]
       else [StartupAction.startPipeline cfg.folder])

/-! ## The pipeline as a transition system (lines 20-48, 69-81, 113-151) -/

/-- One call of the walk function by `filepath.Walk`, in walk order. -/
structure WalkEntry where
  path : Str
  isDir : Bool
  /-- The walk function receives a non-nil error for this entry. -/
  err : Bool
  deriving DecidableEq

/-- Which of the three `errCh <-` statements of `uploadFile` produced an error. -/
inductive ErrKind
  | openFile
  | relativePath
  | putObject
  deriving DecidableEq

/-- The error values sent on `errCh`; each message names the file path. -/
structure UploadError where
  kind : ErrKind
  file : Str
  deriving DecidableEq

/-- The fields of `s3.PutObjectInput` other than the body. -/
structure PutObjectInput where
  bucket : Str
  key : Str
  contentType : Str
  deriving DecidableEq

/-- The outside world as seen by `uploadFile`. -/
structure Env where
  /-- Does `os.Open(filePath)` return an error. -/
  openFails : Str → Bool
  /-- Does `svc.PutObject` return an error for this file and this request. -/
  putFails : Str → PutObjectInput → Bool
  /-- Go `mime.TypeByExtension`. -/
  typeByExtension : Str → Str

/-- The result of one `uploadFile` call. -/
inductive Outcome
  /-- Line 80 was reached: the success line with the key is printed. -/
  | success (file key : Str)
  /-- One of lines 46, 54, 76 sent an error. -/
  | failure (e : UploadError)
  deriving DecidableEq

/-- Lines 62-74: the request built for a file once its key is known. -/
def buildRequest (env : Env) (filePath bucketName key : Str) : PutObjectInput :=
  ⟨bucketName, key, contentTypeOf env.typeByExtension filePath⟩

/-- The request `uploadFile` passes to `PutObject` (lines 69-74); `none` when
the function returns before line 69. -/
def putObjectInput (env : Env) (filePath bucketName keyPrefix baseDir : Str) :
    Option PutObjectInput :=
  if env.openFails filePath then none
  else
    match destinationKey keyPrefix baseDir filePath with
    | none => none
    | some key => some (buildRequest env filePath bucketName key)

/-- Lines 44-80 of `uploadFile`, without the channel send and the wait group. -/
def uploadFile (env : Env) (filePath bucketName keyPrefix baseDir : Str) : Outcome :=
  if env.openFails filePath then Outcome.failure ⟨ErrKind.openFile, filePath⟩
  else
    match destinationKey keyPrefix baseDir filePath with
    | none => Outcome.failure ⟨ErrKind.relativePath, filePath⟩
    | some key =>
      if env.putFails filePath (buildRequest env filePath bucketName key)
      then Outcome.failure ⟨ErrKind.putObject, filePath⟩
      else Outcome.success filePath key

/-- Everything a run depends on. -/
structure Run where
  /-- The value of `*workers`: capacity of `errCh` and of `sem`. -/
  cap : Nat
  env : Env
  bucket : Str
  keyPrefix : Str
  folder : Str
  /-- The calls `filepath.Walk` makes on `folder`. -/
  walk : List WalkEntry

/-- What the program writes. -/
inductive Event
  /-- Line 80, `File successfully uploaded: key`, written by the upload of `file`. -/
  | uploaded (file key : Str)
  /-- Line 147, `Error: ...`. -/
  | errorLine (e : UploadError)
  /-- Line 34, `Error retrieving files from directory ...`. -/
  | walkError
  /-- Line 150, `Upload completed.`. -/
  | completed
  deriving DecidableEq

/-- Program counter of the `streamFiles` goroutine. -/
inductive ProducerPc
  /-- Inside `filepath.Walk`, these entries still to visit. -/
  | walking (rest : List WalkEntry)
  /-- Before `close(fileCh)` (line 37). -/
  | closing
  /-- Before the deferred `wg.Done()` (line 21). -/
  | doneWg
  | finished
  deriving DecidableEq

/-- Program counter of `main` from line 127 on. -/
inductive MainPc
  /-- Line 127: waiting to receive from `fileCh`. -/
  | recv
  /-- Line 128: before `uploadWg.Add(1)`. -/
  | add (file : Str)
  /-- Line 129: before `sem <- struct{}{}`. -/
  | acquire (file : Str)
  /-- Line 130: before the `go` statement. -/
  | spawn (file : Str)
  /-- Line 137: before the `go` statement of the closing goroutine. -/
  | startCloser
  /-- Line 143: `wg.Wait()`. -/
  | waitStream
  /-- Line 146: `for err := range errCh`. -/
  | drain
  /-- Line 150: before `fmt.Println("Upload completed.")`. -/
  | report
  /-- Function `main` has returned; the process has exited with status 0. -/
  | exited
  deriving DecidableEq

/-- Program counter of one upload goroutine (lines 130-133 and `uploadFile`). -/
inductive WorkerPc
  /-- Inside `uploadFile`, before its outcome is decided. -/
  | running
  /-- At one of the `errCh <- ...` statements. -/
  | sendErr (e : UploadError)
  /-- Before the deferred `wg.Done()` of `uploadFile` (line 42). -/
  | wgDone
  /-- Function `uploadFile` has returned; before the deferred `<-sem` (line 131). -/
  | release
  | finished
  deriving DecidableEq

/-- An upload goroutine. -/
structure Worker where
  file : Str
  pc : WorkerPc
  deriving DecidableEq

/-- Program counter of the goroutine of lines 137-140. -/
inductive CloserPc
  /-- Line 138: `uploadWg.Wait()`. -/
  | waiting
  /-- Line 139: before `close(errCh)`. -/
  | closing
  | finished
  deriving DecidableEq

/-- The shared state and every goroutine of a run. -/
structure State where
  producer : ProducerPc
  fileChClosed : Bool
  main : MainPc
  workers : List Worker
  /-- The closing goroutine; `none` before line 137. -/
  closer : Option CloserPc
  /-- Counter of `wg`. -/
  wg : Nat
  /-- Counter of `uploadWg`. -/
  uploadWg : Nat
  /-- Number of values buffered in `sem`. -/
  sem : Nat
  /-- Buffer of `errCh`, oldest first. -/
  errCh : List UploadError
  errChClosed : Bool
  /-- A goroutine has panicked (negative wait-group counter, send on or close
  of a closed channel); the process is dead. -/
  panicked : Bool
  /-- Everything written so far, oldest first. -/
  out : List Event
  deriving DecidableEq

/-- The state after line 125: `wg.Add(1)` and `go streamFiles(...)` are done,
the channels are empty, `main` is about to enter the loop of line 127. -/
def init (r : Run) : State :=
  { producer := ProducerPc.walking r.walk
    fileChClosed := false
    main := MainPc.recv
    workers := []
    closer := none
    wg := 1
    uploadWg := 0
    sem := 0
    errCh := []
    errChClosed := false
    panicked := false
    out := [] }

/-- Which goroutine moves. -/
inductive Label
  | producer
  | main
  | worker (i : Nat)
  | closer
  deriving DecidableEq

/-- A step of `streamFiles`.  The send of line 28 is a rendezvous on the
unbuffered `fileCh`: it happens when `main` waits at line 127 and hands the
path over. -/
def streamFilesStep (s : State) : Option State :=
  match s.producer with
  | ProducerPc.walking [] => some { s with producer := ProducerPc.closing }
  | ProducerPc.walking (e :: rest) =>
    if e.err then
      some { s with producer := ProducerPc.closing, out := s.out ++ [Event.walkError] }
    else if e.isDir then some { s with producer := ProducerPc.walking rest }
    else
      match s.main with
      | MainPc.recv =>
        some { s with producer := ProducerPc.walking rest, main := MainPc.add e.path }
      | _ => none
  | ProducerPc.closing =>
    some { s with producer := ProducerPc.doneWg, fileChClosed := true }
  | ProducerPc.doneWg =>
    if s.wg = 0 then some { s with panicked := true }
    else some { s with producer := ProducerPc.finished, wg := s.wg - 1 }
  | ProducerPc.finished => none

/-- A step of `main` (lines 127-150), other than the receive of a path. -/
def mainStep (r : Run) (s : State) : Option State :=
  match s.main with
  | MainPc.recv => if s.fileChClosed then some { s with main := MainPc.startCloser } else none
  | MainPc.add f => some { s with main := MainPc.acquire f, uploadWg := s.uploadWg + 1 }
  | MainPc.acquire f =>
    if s.sem < r.cap then some { s with main := MainPc.spawn f, sem := s.sem + 1 } else none
  | MainPc.spawn f =>
    some { s with main := MainPc.recv, workers := s.workers ++ [⟨f, WorkerPc.running⟩] }
  | MainPc.startCloser =>
    some { s with main := MainPc.waitStream, closer := some CloserPc.waiting }
  | MainPc.waitStream => if s.wg = 0 then some { s with main := MainPc.drain } else none
  | MainPc.drain =>
    match s.errCh with
    | e :: rest => some { s with errCh := rest, out := s.out ++ [Event.errorLine e] }
    | [] => if s.errChClosed then some { s with main := MainPc.report } else none
  | MainPc.report => some { s with main := MainPc.exited, out := s.out ++ [Event.completed] }
  | MainPc.exited => none

/-- A step of the upload goroutine `w`, at position `i` of the worker list. -/
def uploadStep (r : Run) (s : State) (i : Nat) (w : Worker) : Option State :=
  match w.pc with
  | WorkerPc.running =>
    match uploadFile r.env w.file r.bucket r.keyPrefix r.folder with
    | Outcome.success file key =>
      some { s with workers := s.workers.set i ⟨w.file, WorkerPc.wgDone⟩,
                    out := s.out ++ [Event.uploaded file key] }
    | Outcome.failure e =>
      some { s with workers := s.workers.set i ⟨w.file, WorkerPc.sendErr e⟩ }
  | WorkerPc.sendErr e =>
    if s.errChClosed then some { s with panicked := true }
    else if s.errCh.length < r.cap then
      some { s with workers := s.workers.set i ⟨w.file, WorkerPc.wgDone⟩,
                    errCh := s.errCh ++ [e] }
    else none
  | WorkerPc.wgDone =>
    if s.uploadWg = 0 then some { s with panicked := true }
    else some { s with workers := s.workers.set i ⟨w.file, WorkerPc.release⟩,
                       uploadWg := s.uploadWg - 1 }
  | WorkerPc.release =>
    if s.sem = 0 then none
    else some { s with workers := s.workers.set i ⟨w.file, WorkerPc.finished⟩,
                       sem := s.sem - 1 }
  | WorkerPc.finished => none

/-- A step of the closing goroutine (lines 138-139). -/
def closerStep (s : State) : Option State :=
  match s.closer with
  | none => none
  | some CloserPc.waiting =>
    if s.uploadWg = 0 then some { s with closer := some CloserPc.closing } else none
  | some CloserPc.closing =>
    if s.errChClosed then some { s with panicked := true }
    else some { s with closer := some CloserPc.finished, errChClosed := true }
  | some CloserPc.finished => none

/-- One step of the program: the goroutine named by the label moves, if it can.
Nothing moves after a panic or after `main` has returned. -/
def step (r : Run) (s : State) (l : Label) : Option State :=
  if s.panicked ∨ s.main = MainPc.exited then none
  else
    match l with
    | Label.producer => streamFilesStep s
    | Label.main => mainStep r s
    | Label.worker i =>
      match s.workers[i]? with
      | none => none
      | some w => uploadStep r s i w
    | Label.closer => closerStep s

/-- Execution of a schedule; `none` when a label names a goroutine that
cannot move. -/
def run (r : Run) : List Label → State → Option State
  | [], s => some s
  | l :: ls, s =>
    match step r s l with
    | none => none
    | some t => run r ls t

/-- States the program can be in. -/
def Reachable (r : Run) (s : State) : Prop :=
  ∃ sched : List Label, run r sched (init r) = some s

/-- No goroutine can move. -/
def Stuck (r : Run) (s : State) : Prop :=
  ∀ l : Label, step r s l = none

/-! ## Observations on a state -/

/-- Exit status of the process once it has ended: 0 when `main` has returned,
2 after a panic; `none` while it runs. -/
def exitStatus (s : State) : Option Nat :=
  if s.panicked then some 2 else if s.main = MainPc.exited then some 0 else none

/-- The outcome a line of output reports, if it reports one. -/
def eventOutcome : Event → Option Outcome
  | Event.uploaded file key => some (Outcome.success file key)
  | Event.errorLine e => some (Outcome.failure e)
  | _ => none

/-- The outcomes printed so far, oldest first. -/
def outcomesOf (out : List Event) : List Outcome := out.filterMap eventOutcome

/-- The path an outcome is about. -/
def Outcome.path : Outcome → Str
  | Outcome.success file _ => file
  | Outcome.failure e => e.file

/-- Number of success lines printed by the upload of path `p`. -/
def successLines (p : Str) (out : List Event) : Nat :=
  out.countP (fun ev =>
    match ev with
    | Event.uploaded file _ => decide (file = p)
    | _ => false)

/-- Number of error lines naming path `p`. -/
def errorLines (p : Str) (out : List Event) : Nat :=
  out.countP (fun ev =>
    match ev with
    | Event.errorLine e => decide (e.file = p)
    | _ => false)

/-- One for a goroutine that holds a slot of `sem`: it has been started and
its `<-sem` of line 131 has not happened yet. -/
def holdsSlot (w : Worker) : Nat :=
  match w.pc with
  | WorkerPc.finished => 0
  | _ => 1

/-- One for a goroutine inside `uploadFile`, before its `wg.Done()`. -/
def inUpload (w : Worker) : Nat :=
  match w.pc with
  | WorkerPc.running => 1
  | WorkerPc.sendErr _ => 1
  | WorkerPc.wgDone => 1
  | _ => 0

/-- Number of upload goroutines started and not yet past `<-sem`. -/
def slotHolders (ws : List Worker) : Nat := (ws.map holdsSlot).sum

/-- Number of `uploadFile` calls that have not returned. -/
def uploading (ws : List Worker) : Nat := (ws.map inUpload).sum

/-! ## Invariants of the pipeline -/

/-- One when `main` has put a value into `sem` for a goroutine it has not
started yet. -/
def spawnPending : MainPc → Nat
  | MainPc.spawn _ => 1
  | _ => 0

/-- One when `main` has done `uploadWg.Add(1)` for a goroutine it has not
started yet. -/
def addPending : MainPc → Nat
  | MainPc.acquire _ => 1
  | MainPc.spawn _ => 1
  | _ => 0

/-- Past the loop of lines 127-134. -/
def leftLoop : MainPc → Prop
  | MainPc.startCloser => True
  | MainPc.waitStream => True
  | MainPc.drain => True
  | MainPc.report => True
  | MainPc.exited => True
  | _ => False

/-- Past the `go` statement of line 137. -/
def closerStarted : MainPc → Prop
  | MainPc.waitStream => True
  | MainPc.drain => True
  | MainPc.report => True
  | MainPc.exited => True
  | _ => False

/-- At or past the loop of line 146. -/
def draining : MainPc → Prop
  | MainPc.drain => True
  | MainPc.report => True
  | MainPc.exited => True
  | _ => False

/-- Past the loop of line 146. -/
def drained : MainPc → Prop
  | MainPc.report => True
  | MainPc.exited => True
  | _ => False

/-- The control invariant of the pipeline. -/
structure Inv (r : Run) (s : State) : Prop where
  sem_eq : slotHolders s.workers + spawnPending s.main = s.sem
  sem_le : s.sem ≤ r.cap
  uwg_eq : uploading s.workers + addPending s.main = s.uploadWg
  closer_main : s.closer ≠ none → closerStarted s.main
  closer_uwg :
    s.closer = some CloserPc.closing ∨ s.closer = some CloserPc.finished → s.uploadWg = 0
  closed_iff : s.errChClosed = true ↔ s.closer = some CloserPc.finished
  drained_closed : drained s.main → s.errChClosed = true ∧ s.errCh = []
  completed_exited : Event.completed ∈ s.out → s.main = MainPc.exited
  loop_closed : leftLoop s.main → s.fileChClosed = true
  closed_producer : s.fileChClosed = true →
    s.producer = ProducerPc.doneWg ∨ s.producer = ProducerPc.finished
  wg_zero : s.wg = 0 ↔ s.producer = ProducerPc.finished
  wg_le : s.wg ≤ 1
  draining_wg : draining s.main → s.wg = 0
  errline_main : ∀ e, Event.errorLine e ∈ s.out → draining s.main
  no_panic : s.panicked = false

/-- The call `uploadFile(svc, file, *bucket, *prefix, *folder, ...)` of line 132. -/
def uploadOf (r : Run) (file : Str) : Outcome :=
  uploadFile r.env file r.bucket r.keyPrefix r.folder

/-- The outcome an upload goroutine has still to deliver. -/
def pendingOutcome (r : Run) (w : Worker) : List Outcome :=
  match w.pc with
  | WorkerPc.running => [uploadOf r w.file]
  | WorkerPc.sendErr e => [Outcome.failure e]
  | _ => []

/-- How often the goroutine has still to deliver the outcome `o`. -/
def owes (r : Run) (o : Outcome) (w : Worker) : Nat := (pendingOutcome r w).count o

/-- The paths `streamFiles` sends: the non-directories met before the first
walk error. -/
def discovered : List WalkEntry → List Str
  | [] => []
  | e :: rest =>
    if e.err then []
    else if e.isDir then discovered rest
    else e.path :: discovered rest

/-- The path `main` has received and not yet handed to a goroutine. -/
def mainPending : MainPc → List Str
  | MainPc.add f => [f]
  | MainPc.acquire f => [f]
  | MainPc.spawn f => [f]
  | _ => []

/-- The paths `streamFiles` has still to send. -/
def producerPending : ProducerPc → List Str
  | ProducerPc.walking rest => discovered rest
  | _ => []

/-- Every outcome of the run: printed, buffered in `errCh`, or still to come. -/
def accounted (r : Run) (s : State) : List Outcome :=
  outcomesOf s.out ++ (s.errCh.map Outcome.failure ++
    ((s.workers.map (pendingOutcome r)).flatten ++
      (mainPending s.main ++ producerPending s.producer).map (uploadOf r)))

/-! ## Concrete runs -/

/-- A regular file met by the walk. -/
def fileEntry (path : String) : WalkEntry := ⟨path.toList, false, false⟩

/-- A directory met by the walk. -/
def dirEntry (path : String) : WalkEntry := ⟨path.toList, true, false⟩

/-- A small extension table. -/
def demoMime (ext : Str) : Str :=
  if ext = ".json".toList then "application/json".toList
  else if ext = ".txt".toList then "text/plain; charset=utf-8".toList
  else []

/-- An environment in which exactly the listed paths cannot be opened and
every `PutObject` succeeds. -/
def demoEnv (unreadable : List Str) : Env :=
  { openFails := fun f => decide (f ∈ unreadable)
    putFails := fun _ _ => false
    typeByExtension := demoMime }

/-- The state a schedule leads to from the initial state. -/
def stateAfter (r : Run) (sched : List Label) : State :=
  (run r sched (init r)).getD (init r)

/-- A folder `/d` with three files. -/
def demoWalk : List WalkEntry :=
  [dirEntry "/d", fileEntry "/d/a.txt", fileEntry "/d/b.txt", fileEntry "/d/c.txt"]

/-- Two workers, three files, `/d/b.txt` cannot be opened. -/
def mixedRun : Run :=
  ⟨2, demoEnv ["/d/b.txt".toList], "B".toList, "up".toList, "/d".toList, demoWalk⟩

/-- A complete schedule of `mixedRun`: the three uploads in turn, then the
shutdown. -/
def mixedSched : List Label :=
  [Label.producer, Label.producer, Label.main, Label.main, Label.main,
   Label.producer, Label.main, Label.main, Label.main,
   Label.worker 0, Label.worker 0, Label.worker 0,
   Label.producer, Label.main, Label.main, Label.main,
   Label.worker 1, Label.worker 1, Label.worker 1, Label.worker 1,
   Label.worker 2, Label.worker 2, Label.worker 2,
   Label.producer, Label.producer, Label.producer,
   Label.main, Label.main, Label.main, Label.main,
   Label.closer, Label.closer, Label.main, Label.main]

/-- One worker, two files, `/d/a.txt` cannot be opened. -/
def overlapRun : Run :=
  ⟨1, demoEnv ["/d/a.txt".toList], "B".toList, "up".toList, "/d".toList,
    [dirEntry "/d", fileEntry "/d/a.txt", fileEntry "/d/b.txt"]⟩

/-- A schedule of `overlapRun` in which `main` prints the error of the first
file while the upload of the second has not finished. -/
def overlapSched : List Label :=
  [Label.producer, Label.producer, Label.main, Label.main, Label.main,
   Label.worker 0, Label.worker 0, Label.worker 0, Label.worker 0,
   Label.producer, Label.main, Label.main, Label.main,
   Label.producer, Label.producer, Label.producer,
   Label.main, Label.main, Label.main, Label.main]

/-- One worker, three files, the first two cannot be opened. -/
def deadRun : Run :=
  ⟨1, demoEnv ["/d/a.txt".toList, "/d/b.txt".toList], "B".toList, "up".toList, "/d".toList,
    demoWalk⟩

/-- A schedule of `deadRun`; every schedule of it that runs long enough ends in
the same state. -/
def deadSched : List Label :=
  [Label.producer, Label.producer, Label.main, Label.main, Label.main,
   Label.worker 0, Label.worker 0, Label.worker 0, Label.worker 0,
   Label.producer, Label.main, Label.main, Label.main,
   Label.worker 1, Label.producer, Label.main,
   Label.producer, Label.producer, Label.producer]

/-- The state `deadSched` leads to: the second upload waits at `errCh <-` with
the buffer full, `main` waits at `sem <-` for the third file, nothing reads
`errCh`. -/
def deadState : State :=
  { producer := ProducerPc.finished
    fileChClosed := true
    main := MainPc.acquire "/d/c.txt".toList
    workers := [⟨"/d/a.txt".toList, WorkerPc.finished⟩,
      ⟨"/d/b.txt".toList, WorkerPc.sendErr ⟨ErrKind.openFile, "/d/b.txt".toList⟩⟩]
    closer := none
    wg := 0
    uploadWg := 2
    sem := 1
    errCh := [⟨ErrKind.openFile, "/d/a.txt".toList⟩]
    errChClosed := false
    panicked := false
    out := [] }

/-! # Theorems -/

/-! ## Sanity checks of the path functions against Go -/

theorem Clean_examples :
    Clean "a//b/../c/./d/".toList = "a/c/d".toList
      ∧ Clean "/../a//b/../c/./d/".toList = "/a/c/d".toList
      ∧ Clean "../../a/../../x".toList = "../../../x".toList
      ∧ Clean "a/..".toList = ".".toList
      ∧ Clean "/..".toList = "/".toList
      ∧ Clean [] = ".".toList := by
  decide

theorem Join_examples :
    Join ["a".toList, "b/../c".toList] = "a/c".toList
      ∧ Join [[], "a".toList] = "a".toList
      ∧ Join ["a/".toList, "b".toList] = "a/b".toList
      ∧ Join [[], []] = [] := by
  decide

theorem Rel_examples :
    Rel "/a".toList "/a/b/c".toList = some "b/c".toList
      ∧ Rel "/a".toList "/b/c".toList = some "../b/c".toList
      ∧ Rel "/a".toList "./b/c".toList = none
      ∧ Rel "/a/b".toList "/a/b/c/d".toList = some "c/d".toList
      ∧ Rel "a/b/c".toList "a/c/d".toList = some "../../c/d".toList
      ∧ Rel "/a/b/c/d/".toList "/a/b/".toList = some "../..".toList
      ∧ Rel ".".toList "..".toList = some "..".toList
      ∧ Rel "a/b/../c".toList "a/b".toList = some "../b".toList
      ∧ Rel "/".toList "/a".toList = some "a".toList
      ∧ Rel "a/b".toList "a/b/.".toList = some ".".toList
      ∧ Rel "a".toList ".".toList = some "..".toList
      ∧ Rel "a/b".toList ".".toList = some "../..".toList
      ∧ Rel "/a".toList "/".toList = some "..".toList
      ∧ Rel "..".toList ".".toList = none
      ∧ Rel "../..".toList "..".toList = none
      ∧ Rel "../../a".toList "../b".toList = none
      ∧ Rel "..".toList "a".toList = none
      ∧ Rel "/a".toList "a".toList = none := by
  decide

theorem Ext_examples :
    Ext "x/y.tar.gz".toList = ".gz".toList
      ∧ Ext "x.d/y".toList = []
      ∧ Ext "a.".toList = ".".toList := by
  decide

/-! ## Lemmas on the path functions -/

theorem splitSlash_ne_nil : ∀ p : Str, splitSlash p ≠ []
  | [] => by simp [splitSlash]
  | c :: cs => by
    unfold splitSlash
    split
    · simp
    · split <;> simp

theorem splitSlash_append (b : Str) : ∀ a : Str,
    splitSlash (a ++ '/' :: b) = splitSlash a ++ splitSlash b
  | [] => by simp [splitSlash]
  | c :: cs => by
    have ih := splitSlash_append b cs
    by_cases hc : c = '/'
    · simp [splitSlash, hc, ih]
    · simp only [List.cons_append, splitSlash, hc, if_false, ih]
      cases h : splitSlash cs with
      | nil => exact absurd h (splitSlash_ne_nil cs)
      | cons x xs => simp [ih, h]

theorem splitSlash_noslash : ∀ c : Str, '/' ∉ c → splitSlash c = [c]
  | [], _ => by simp [splitSlash]
  | x :: xs, h => by
    simp only [List.mem_cons, not_or] at h
    have hx : x ≠ '/' := fun e => h.1 e.symm
    simp [splitSlash, hx, splitSlash_noslash xs h.2]

theorem mem_splitSlash_noslash : ∀ (p : Str) (c : Str), c ∈ splitSlash p → '/' ∉ c
  | [], c, h => by
    simp [splitSlash] at h
    simp [h]
  | x :: xs, c, h => by
    by_cases hx : x = '/'
    · simp only [splitSlash, hx, if_true, List.mem_cons] at h
      rcases h with h | h
      · simp [h]
      · exact mem_splitSlash_noslash xs c h
    · simp only [splitSlash, hx, if_false] at h
      cases hs : splitSlash xs with
      | nil => exact absurd hs (splitSlash_ne_nil xs)
      | cons y ys =>
        rw [hs] at h
        simp only [List.mem_cons] at h
        rcases h with h | h
        · have := mem_splitSlash_noslash xs y (by simp [hs])
          subst h
          simp only [List.mem_cons, not_or]
          exact ⟨fun e => hx e.symm, this⟩
        · exact mem_splitSlash_noslash xs c (by simp [hs, h])

theorem splitSlash_joinSlash : ∀ E : List Str, E ≠ [] → (∀ c ∈ E, '/' ∉ c) →
    splitSlash (joinSlash E) = E
  | [], h, _ => absurd rfl h
  | [c], _, h => by
    simp only [joinSlash]
    exact splitSlash_noslash c (h c (by simp))
  | c :: d :: rest, _, h => by
    simp only [joinSlash]
    rw [splitSlash_append, splitSlash_noslash c (h c (by simp)),
      splitSlash_joinSlash (d :: rest) (by simp) (fun x hx => h x (by simp [hx]))]
    simp


theorem isName_not_special {c : Str} (h : IsName c) :
    ¬ (c = [] ∨ c = ['.']) ∧ c ≠ ['.', '.'] :=
  ⟨fun e => e.elim h.1 h.2.2.1, h.2.2.2⟩

theorem pushComp_name (rooted : Bool) (st : List Str) {c : Str} (h : IsName c) :
    pushComp rooted st c = c :: st := by
  have := isName_not_special h
  simp [pushComp, this.1, this.2]

theorem pushComp_top (rooted : Bool) (st : List Str) (c : Str) (h : OkStack rooted (c :: st)) :
    pushComp rooted st c = c :: st := by
  rcases h with ⟨hn, _⟩ | ⟨hc, hr, hall⟩
  · exact pushComp_name rooted st hn
  · subst hc
    cases st with
    | nil => simp [pushComp, hr]
    | cons top rest =>
      have : top = ['.', '.'] := hall top (by simp)
      simp [pushComp, this]

theorem okStack_dots {rooted : Bool} (hr : rooted = false) : ∀ st : List Str,
    (∀ d ∈ st, d = ['.', '.']) → OkStack rooted st
  | [], _ => trivial
  | d :: rest, hall =>
    Or.inr ⟨hall d (by simp), hr, fun x hx => hall x (by simp [hx])⟩

theorem okStack_tail {rooted : Bool} {c : Str} {st : List Str} (h : OkStack rooted (c :: st)) :
    OkStack rooted st := by
  rcases h with ⟨_, h⟩ | ⟨_, hr, hall⟩
  · exact h
  · exact okStack_dots hr st hall

theorem okStack_suffix {rooted : Bool} : ∀ (a : List Str) {b : List Str},
    OkStack rooted (a ++ b) → OkStack rooted b
  | [], _, h => h
  | _ :: a, _, h => okStack_suffix a (okStack_tail h)

theorem okStack_push (rooted : Bool) (st : List Str) (c : Str) (hst : OkStack rooted st)
    (hc : '/' ∉ c) : OkStack rooted (pushComp rooted st c) := by
  unfold pushComp
  split
  · exact hst
  · rename_i h1
    split
    · rename_i h2
      cases st with
      | nil =>
        cases rooted with
        | true => simp [OkStack]
        | false => simp [OkStack, h2]
      | cons top rest =>
        simp only
        split
        · rename_i h3
          rcases hst with ⟨hn, _⟩ | ⟨_, hr, hall⟩
          · exact absurd h3 hn.2.2.2
          · refine Or.inr ⟨h2, hr, ?_⟩
            intro d hd
            simp only [List.mem_cons] at hd
            rcases hd with hd | hd
            · rw [hd, h3]
            · exact hall d hd
        · exact okStack_tail hst
    · rename_i h2
      refine Or.inl ⟨⟨?_, hc, ?_, h2⟩, hst⟩
      · exact fun e => h1 (Or.inl e)
      · exact fun e => h1 (Or.inr e)

theorem okStack_foldl (rooted : Bool) : ∀ (cs : List Str) (st : List Str), OkStack rooted st →
    (∀ c ∈ cs, '/' ∉ c) → OkStack rooted (cs.foldl (pushComp rooted) st)
  | [], _, hst, _ => hst
  | c :: cs, st, hst, h => by
    simp only [List.foldl_cons]
    exact okStack_foldl rooted cs _ (okStack_push rooted st c hst (h c (by simp)))
      (fun x hx => h x (by simp [hx]))

theorem foldl_push_replay (rooted : Bool) : ∀ (E : List Str) (acc : List Str),
    OkStack rooted (E.reverse ++ acc) → E.foldl (pushComp rooted) acc = E.reverse ++ acc
  | [], _, _ => by simp
  | c :: E, acc, h => by
    simp only [List.reverse_cons, List.append_assoc, List.singleton_append] at h
    simp only [List.foldl_cons, List.reverse_cons, List.append_assoc, List.singleton_append]
    rw [pushComp_top rooted acc c (okStack_suffix E.reverse h)]
    exact foldl_push_replay rooted E (c :: acc) h

theorem okStack_names (rooted : Bool) : ∀ (names : List Str) (acc : List Str),
    OkStack rooted acc → (∀ c ∈ names, IsName c) → OkStack rooted (names.reverse ++ acc)
  | [], _, h, _ => by simpa using h
  | c :: names, acc, h, hn => by
    simp only [List.reverse_cons, List.append_assoc, List.singleton_append]
    exact okStack_names rooted names (c :: acc) (Or.inl ⟨hn c (by simp), h⟩)
      (fun x hx => hn x (by simp [hx]))

theorem okStack_elem {rooted : Bool} : ∀ {st : List Str}, OkStack rooted st →
    ∀ c ∈ st, c ≠ [] ∧ '/' ∉ c ∧ c ≠ ['.']
  | [], _, c, hc => by simp at hc
  | d :: st, h, c, hc => by
    simp only [List.mem_cons] at hc
    rcases hc with hc | hc
    · subst hc
      rcases h with ⟨hn, _⟩ | ⟨hd, _, _⟩
      · exact ⟨hn.1, hn.2.1, hn.2.2.1⟩
      · subst hd
        decide
    · exact okStack_elem (okStack_tail h) c hc


theorem foldl_push_names (rooted : Bool) : ∀ (names : List Str) (acc : List Str),
    (∀ c ∈ names, IsName c) → names.foldl (pushComp rooted) acc = names.reverse ++ acc
  | [], _, _ => by simp
  | c :: names, acc, hn => by
    simp only [List.foldl_cons, List.reverse_cons, List.append_assoc, List.singleton_append]
    rw [pushComp_name rooted acc (hn c (by simp))]
    exact foldl_push_names rooted names (c :: acc) (fun x hx => hn x (by simp [hx]))

theorem okStack_cleanElems (rooted : Bool) (p : Str) :
    OkStack rooted (cleanElems rooted p).reverse := by
  simp only [cleanElems, List.reverse_reverse]
  exact okStack_foldl rooted _ [] trivial (mem_splitSlash_noslash p)

theorem cleanElems_append_names (rooted : Bool) (p : Str) (names : List Str)
    (hne : names ≠ []) (hn : ∀ c ∈ names, IsName c) :
    cleanElems rooted (p ++ '/' :: joinSlash names) = cleanElems rooted p ++ names := by
  simp only [cleanElems]
  rw [splitSlash_append, splitSlash_joinSlash names hne (fun c hc => (hn c hc).2.1),
    List.foldl_append, foldl_push_names rooted names _ hn]
  simp

theorem cleanElems_names (rooted : Bool) (names : List Str)
    (hne : names ≠ []) (hn : ∀ c ∈ names, IsName c) :
    cleanElems rooted (joinSlash names) = names := by
  simp only [cleanElems]
  rw [splitSlash_joinSlash names hne (fun c hc => (hn c hc).2.1),
    foldl_push_names rooted names _ hn]
  simp

theorem joinSlash_cons (c : Str) : ∀ E : List Str, E ≠ [] →
    joinSlash (c :: E) = c ++ '/' :: joinSlash E
  | [], h => absurd rfl h
  | _ :: _, _ => rfl

theorem joinSlash_append : ∀ (E F : List Str), E ≠ [] → F ≠ [] →
    joinSlash (E ++ F) = joinSlash E ++ '/' :: joinSlash F
  | [], _, h, _ => absurd rfl h
  | [c], F, _, hF => by
    simp only [List.singleton_append, joinSlash]
    exact joinSlash_cons c F hF
  | c :: d :: E, F, _, hF => by
    have ih := joinSlash_append (d :: E) F (by simp) hF
    simp only [List.cons_append] at ih ⊢
    simp only [joinSlash, ih, List.append_assoc, List.cons_append]

theorem isRooted_append {a : Str} (h : a ≠ []) (b : Str) : isRooted (a ++ b) = isRooted a := by
  cases a with
  | nil => exact absurd rfl h
  | cons c cs => rfl

theorem joinSlash_ne_nil : ∀ E : List Str, E ≠ [] → (∀ c ∈ E, c ≠ []) → joinSlash E ≠ []
  | [], h, _ => absurd rfl h
  | [c], _, h => by
    simp only [joinSlash]
    exact h c (by simp)
  | c :: d :: E, _, h => by
    simp only [joinSlash]
    have := h c (by simp)
    simp [this]

theorem isRooted_joinSlash : ∀ E : List Str, (∀ c ∈ E, c ≠ [] ∧ '/' ∉ c) →
    isRooted (joinSlash E) = false
  | [], _ => rfl
  | [c], h => by
    simp only [joinSlash]
    have := h c (by simp)
    cases c with
    | nil => rfl
    | cons x xs =>
      have hx : x ≠ '/' := fun e => this.2 (by simp [e])
      simp [isRooted, hx]
  | c :: d :: E, h => by
    simp only [joinSlash]
    have := h c (by simp)
    rw [isRooted_append this.1]
    cases c with
    | nil => rfl
    | cons x xs =>
      have hx : x ≠ '/' := fun e => this.2 (by simp [e])
      simp [isRooted, hx]

theorem elemsOf_noslash : ∀ c : Str, c ≠ [] → '/' ∉ c → elemsOf c = [c]
  | [], h, _ => absurd rfl h
  | [x], _, h => by
    have hx : x ≠ '/' := fun e => h (by simp [e])
    simp [elemsOf, hx]
  | x :: y :: ys, _, h => by
    have hx : x ≠ '/' := fun e => h (by simp [e])
    have ih := elemsOf_noslash (y :: ys) (by simp) (fun e => h (by simp [e]))
    simp only [elemsOf, hx, if_false] at ih ⊢
    rw [ih]

theorem elemsOf_append (b : Str) : ∀ a : Str, a ≠ [] → '/' ∉ a →
    elemsOf (a ++ '/' :: b) = a :: elemsOf b
  | [], h, _ => absurd rfl h
  | [x], _, h => by
    have hx : x ≠ '/' := fun e => h (by simp [e])
    simp [elemsOf, hx]
  | x :: y :: ys, _, h => by
    have hx : x ≠ '/' := fun e => h (by simp [e])
    have ih := elemsOf_append b (y :: ys) (by simp) (fun e => h (by simp [e]))
    simp only [List.cons_append] at ih ⊢
    rw [elemsOf, if_neg hx, ih]

theorem elemsOf_joinSlash : ∀ E : List Str, (∀ c ∈ E, c ≠ [] ∧ '/' ∉ c) →
    elemsOf (joinSlash E) = E
  | [], _ => rfl
  | [c], h => by
    simp only [joinSlash]
    exact elemsOf_noslash c (h c (by simp)).1 (h c (by simp)).2
  | c :: d :: E, h => by
    simp only [joinSlash]
    rw [elemsOf_append _ c (h c (by simp)).1 (h c (by simp)).2,
      elemsOf_joinSlash (d :: E) (fun x hx => h x (by simp [hx]))]

theorem stripCommon_append : ∀ (X Y : List Str), stripCommon X (X ++ Y) = ([], Y)
  | [], Y => by cases Y <;> rfl
  | x :: X, Y => by
    simp only [List.cons_append, stripCommon, if_true]
    exact stripCommon_append X Y


theorem okStack_mem_rev {rooted : Bool} {E : List Str} (h : OkStack rooted E.reverse) :
    ∀ c ∈ E, c ≠ [] ∧ '/' ∉ c :=
  fun c hc => ⟨(okStack_elem h c (by simpa using hc)).1, (okStack_elem h c (by simpa using hc)).2.1⟩

theorem isRooted_render {rooted : Bool} {E : List Str} (h : OkStack rooted E.reverse) :
    isRooted (renderPath rooted E) = rooted := by
  cases rooted with
  | true => rfl
  | false =>
    by_cases hE : E = []
    · subst hE
      rfl
    · simp only [renderPath, hE, if_false]
      exact isRooted_joinSlash E (okStack_mem_rev h)

theorem render_ne_nil {rooted : Bool} {E : List Str} (h : OkStack rooted E.reverse) :
    renderPath rooted E ≠ [] := by
  cases rooted with
  | true => simp [renderPath]
  | false =>
    by_cases hE : E = []
    · subst hE
      simp [renderPath]
    · simp only [renderPath, hE, if_false]
      exact joinSlash_ne_nil E hE (fun c hc => (okStack_mem_rev h c hc).1)

theorem cleanElems_render {rooted : Bool} {E : List Str} (h : OkStack rooted E.reverse) :
    cleanElems rooted (renderPath rooted E) = E := by
  have hrep := foldl_push_replay rooted E [] (by simpa using h)
  by_cases hE : E = []
  · subst hE
    cases rooted <;> rfl
  · have hsplit := splitSlash_joinSlash E hE (fun c hc => (okStack_mem_rev h c hc).2)
    cases rooted with
    | true =>
      simp only [renderPath, if_true, cleanElems, splitSlash, List.foldl_cons, hsplit]
      have : pushComp true [] [] = [] := rfl
      rw [this, hrep]
      simp
    | false =>
      simp only [renderPath, hE, if_false, cleanElems, Bool.false_eq_true]
      rw [hsplit, hrep]
      simp

theorem Clean_eq {p : Str} (h : p ≠ []) :
    Clean p = renderPath (isRooted p) (cleanElems (isRooted p) p) := by
  simp [Clean, h]

theorem Clean_render {rooted : Bool} {E : List Str} (h : OkStack rooted E.reverse) :
    Clean (renderPath rooted E) = renderPath rooted E := by
  rw [Clean_eq (render_ne_nil h), isRooted_render h, cleanElems_render h]

theorem Clean_append_names {p : Str} (hp : p ≠ []) (names : List Str) (hne : names ≠ [])
    (hn : ∀ c ∈ names, IsName c) :
    Clean (p ++ '/' :: joinSlash names)
      = renderPath (isRooted p) (cleanElems (isRooted p) p ++ names) := by
  rw [Clean_eq (by simp), isRooted_append hp, cleanElems_append_names _ p names hne hn]

theorem Join_pair {p : Str} (hp : p ≠ []) (q : Str) :
    Join [p, q] = Clean (p ++ '/' :: q) := by
  simp [Join, List.dropWhile, hp, joinSlash]

theorem okStack_append_names {rooted : Bool} {E : List Str} (h : OkStack rooted E.reverse)
    (names : List Str) (hn : ∀ c ∈ names, IsName c) : OkStack rooted (E ++ names).reverse := by
  rw [List.reverse_append]
  exact okStack_names rooted names E.reverse h hn

theorem walk_from_render (rooted : Bool) : ∀ (names : List Str) (E : List Str),
    OkStack rooted E.reverse → (∀ c ∈ names, IsName c) →
    walkPath (renderPath rooted E) names = renderPath rooted (E ++ names)
  | [], E, _, _ => by simp [walkPath]
  | n :: names, E, h, hn => by
    have hn1 : ∀ c ∈ [n], IsName c := fun c hc => hn c (by simp at hc; simp [hc])
    have step : Join [renderPath rooted E, n] = renderPath rooted (E ++ [n]) := by
      rw [Join_pair (render_ne_nil h)]
      have := Clean_append_names (render_ne_nil h) [n] (by simp) hn1
      simp only [joinSlash] at this
      rw [this, isRooted_render h, cleanElems_render h]
    have ih := walk_from_render rooted names (E ++ [n]) (okStack_append_names h [n] hn1)
      (fun x hx => hn x (by simp [hx]))
    simp only [walkPath, List.foldl_cons] at ih ⊢
    rw [step, ih]
    simp

theorem walkPath_eq {root : Str} (hroot : root ≠ []) (names : List Str) (hne : names ≠ [])
    (hn : ∀ c ∈ names, IsName c) :
    walkPath root names
      = renderPath (isRooted root) (cleanElems (isRooted root) root ++ names) := by
  cases names with
  | nil => exact absurd rfl hne
  | cons n names =>
    have hn1 : ∀ c ∈ [n], IsName c := fun c hc => hn c (by simp at hc; simp [hc])
    have step : Join [root, n]
        = renderPath (isRooted root) (cleanElems (isRooted root) root ++ [n]) := by
      rw [Join_pair hroot]
      have := Clean_append_names hroot [n] (by simp) hn1
      simpa only [joinSlash] using this
    have ih := walk_from_render (isRooted root) names (cleanElems (isRooted root) root ++ [n])
      (okStack_append_names (okStack_cleanElems _ root) [n] hn1)
      (fun x hx => hn x (by simp [hx]))
    simp only [walkPath, List.foldl_cons] at ih ⊢
    rw [step, ih]
    simp


theorem elemsOf_render {rooted : Bool} {E : List Str} (h : OkStack rooted E.reverse)
    (hE : rooted = true ∨ E ≠ []) : elemsOf (renderPath rooted E) = rootMark rooted ++ E := by
  have hj := elemsOf_joinSlash E (okStack_mem_rev h)
  cases rooted with
  | true => simp [renderPath, elemsOf, hj, rootMark]
  | false =>
    have hE2 : E ≠ [] := by simpa using hE
    simp [renderPath, hE2, hj, rootMark]

theorem render_ne_dot {rooted : Bool} {E : List Str} (h : OkStack rooted E.reverse)
    (hE : rooted = true ∨ E ≠ []) : renderPath rooted E ≠ ['.'] := by
  intro e
  have h1 := elemsOf_render h hE
  rw [e] at h1
  cases rooted with
  | true => simp [elemsOf, rootMark] at h1
  | false =>
    have h2 : E = [['.']] := by simpa [elemsOf, rootMark] using h1.symm
    have := (okStack_elem h ['.'] (by simp [h2])).2.2
    exact this rfl

theorem Rel_under {root : Str} (hroot : root ≠ []) (names : List Str) (hne : names ≠ [])
    (hn : ∀ c ∈ names, IsName c) :
    Rel root (renderPath (isRooted root) (cleanElems (isRooted root) root ++ names))
      = some (joinSlash names) := by
  have hB := okStack_cleanElems (isRooted root) root
  have hT := okStack_append_names hB names hn
  have hTne : cleanElems (isRooted root) root ++ names ≠ [] := by simp [hne]
  have eT := elemsOf_render hT (Or.inr hTne)
  unfold Rel
  simp only [Clean_eq hroot, Clean_render hT]
  by_cases hcase : isRooted root = true ∨ cleanElems (isRooted root) root ≠ []
  · have eB := elemsOf_render hB hcase
    have hne1 : renderPath (isRooted root) (cleanElems (isRooted root) root ++ names)
        ≠ renderPath (isRooted root) (cleanElems (isRooted root) root) := by
      intro e
      rw [e, eB] at eT
      have : names = [] := by simpa using eT.symm
      exact hne this
    rw [if_neg hne1, if_neg (render_ne_dot hB hcase), if_neg (render_ne_dot hT (Or.inr hTne)),
      isRooted_render hB, isRooted_render hT, eB, eT, ← List.append_assoc, stripCommon_append]
    simp
  · simp only [not_or, Bool.not_eq_true, ne_eq, not_not] at hcase
    obtain ⟨hr, hBnil⟩ := hcase
    rw [hr] at eT hT hBnil ⊢
    rw [hBnil] at eT hT ⊢
    simp only [List.nil_append] at eT hT ⊢
    have hrd : renderPath false ([] : List Str) = ['.'] := rfl
    have hne1 : renderPath false names ≠ renderPath false [] := by
      rw [hrd]
      exact render_ne_dot hT (Or.inr hne)
    rw [if_neg hne1, hrd, if_neg (render_ne_dot hT (Or.inr hne)), isRooted_render hT]
    simp only [if_true, eT, rootMark, isRooted, elemsOf]
    have := stripCommon_append [] names
    simp only [List.nil_append] at this
    simp [this]

theorem rel_walkPath {root : Str} (hroot : root ≠ []) (names : List Str) (hne : names ≠ [])
    (hn : ∀ c ∈ names, IsName c) :
    Rel root (walkPath root names) = some (joinSlash names) := by
  rw [walkPath_eq hroot names hne hn]
  exact Rel_under hroot names hne hn

/-! ## Keys, content types and start-up -/

theorem Join_empty_names (names : List Str) (hne : names ≠ []) (hn : ∀ c ∈ names, IsName c) :
    Join [[], joinSlash names] = joinSlash names := by
  have hnn : joinSlash names ≠ [] := joinSlash_ne_nil names hne (fun c hc => (hn c hc).1)
  have hr : isRooted (joinSlash names) = false :=
    isRooted_joinSlash names (fun c hc => ⟨(hn c hc).1, (hn c hc).2.1⟩)
  have : Join [[], joinSlash names] = Clean (joinSlash names) := by
    simp [Join, List.dropWhile, hnn, joinSlash]
  rw [this, Clean_eq hnn, hr, cleanElems_names false names hne hn]
  simp [renderPath, hne]

theorem Join_clean_names {p : Str} (hclean : Clean p = p) (hdot : p ≠ ['.'])
    (hroot : p ≠ ['/']) (names : List Str) (hne : names ≠ []) (hn : ∀ c ∈ names, IsName c) :
    Join [p, joinSlash names] = p ++ '/' :: joinSlash names := by
  have hp : p ≠ [] := by
    intro e
    rw [e] at hclean
    exact absurd hclean (by decide)
  have hP : cleanElems (isRooted p) p ≠ [] := by
    intro e
    rw [Clean_eq hp, e] at hclean
    cases hr : isRooted p with
    | true =>
      rw [hr] at hclean
      exact hroot hclean.symm
    | false =>
      rw [hr] at hclean
      exact hdot hclean.symm
  rw [Join_pair hp, Clean_append_names hp names hne hn]
  have key : renderPath (isRooted p) (cleanElems (isRooted p) p ++ names)
      = renderPath (isRooted p) (cleanElems (isRooted p) p) ++ '/' :: joinSlash names := by
    cases hr : isRooted p with
    | true =>
      rw [hr] at hP
      simp [renderPath, joinSlash_append _ _ hP hne]
    | false =>
      rw [hr] at hP
      simp [renderPath, hP, hne, joinSlash_append _ _ hP hne]
  rw [key, ← Clean_eq hp, hclean]

/-- C5 (amended): for every non-empty base directory and every file the walk
reaches below it through the names `names`, the key computed by `uploadFile` is

* with the empty prefix, the relative path alone, without a leading `/`;
* with a prefix in cleaned form other than `.` and `/` (so without a trailing
  slash), the prefix, one `/`, and the relative path;
* with any non-empty prefix, the cleaned form of prefix, `/`, relative path;

each with every backslash replaced by `/`.  For prefix `up` and the files
`a.txt` and `sub/b.txt` the keys are `up/a.txt` and `up/sub/b.txt`. -/
theorem destinationKey_walkPath (baseDir keyPrefix : Str) (names : List Str)
    (hbase : baseDir ≠ []) (hne : names ≠ []) (hn : ∀ c ∈ names, IsName c) :
    (keyPrefix = [] →
      destinationKey keyPrefix baseDir (walkPath baseDir names)
        = some (replaceBackslash (joinSlash names)))
    ∧ (Clean keyPrefix = keyPrefix → keyPrefix ≠ ['.'] → keyPrefix ≠ ['/'] →
      destinationKey keyPrefix baseDir (walkPath baseDir names)
        = some (replaceBackslash (keyPrefix ++ '/' :: joinSlash names)))
    ∧ (keyPrefix ≠ [] →
      destinationKey keyPrefix baseDir (walkPath baseDir names)
        = some (replaceBackslash (Clean (keyPrefix ++ '/' :: joinSlash names))))
    ∧ destinationKey "up".toList baseDir (walkPath baseDir ["a.txt".toList])
        = some "up/a.txt".toList
    ∧ destinationKey "up".toList baseDir (walkPath baseDir ["sub".toList, "b.txt".toList])
        = some "up/sub/b.txt".toList := by
  have hrel := rel_walkPath hbase names hne hn
  refine ⟨?_, ?_, ?_, ?_, ?_⟩
  · intro hp
    subst hp
    simp only [destinationKey, hrel]
    rw [Join_empty_names names hne hn]
  · intro h1 h2 h3
    simp only [destinationKey, hrel]
    rw [Join_clean_names h1 h2 h3 names hne hn]
  · intro hp
    simp only [destinationKey, hrel]
    rw [Join_pair hp]
  · have hn1 : ∀ c ∈ ["a.txt".toList], IsName c := by decide
    simp only [destinationKey, rel_walkPath hbase _ (by simp) hn1]
    rw [Join_clean_names (by decide) (by decide) (by decide) _ (by simp) hn1]
    decide
  · have hn2 : ∀ c ∈ ["sub".toList, "b.txt".toList], IsName c := by decide
    simp only [destinationKey, rel_walkPath hbase _ (by simp) hn2]
    rw [Join_clean_names (by decide) (by decide) (by decide) _ (by simp) hn2]
    decide

/-- Instance of C5 (amended): prefix `up`, folder `/data`, file `sub/b.txt`. -/
theorem destinationKey_walkPath_witness :
    destinationKey "up".toList "/data".toList
        (walkPath "/data".toList ["sub".toList, "b.txt".toList])
      = some (replaceBackslash ("up".toList ++ '/' :: joinSlash ["sub".toList, "b.txt".toList])) :=
  (destinationKey_walkPath "/data".toList "up".toList ["sub".toList, "b.txt".toList]
    (by decide) (by decide) (by decide)).2.1 (by decide) (by decide) (by decide)

/-- C5 (as stated) fails: with the empty prefix the key of `/data/a.txt` under
`/data` is `a.txt`, not `/a.txt`; with the prefix `up/` it is `up/a.txt`, not
`up//a.txt`. -/
theorem destinationKey_counterexample :
    destinationKey [] "/data".toList (walkPath "/data".toList ["a.txt".toList])
        = some "a.txt".toList
      ∧ "a.txt".toList ≠ [] ++ '/' :: "a.txt".toList
      ∧ destinationKey "up/".toList "/data".toList (walkPath "/data".toList ["a.txt".toList])
        = some "up/a.txt".toList
      ∧ "up/a.txt".toList ≠ "up/".toList ++ '/' :: "a.txt".toList := by
  decide

theorem replaceBackslash_clean (s : Str) : backslash ∉ replaceBackslash s := by
  intro h
  simp only [replaceBackslash, List.mem_map] at h
  obtain ⟨c, _, hc⟩ := h
  split at hc
  · exact absurd hc (by decide)
  · rename_i hne
    exact hne hc

/-- C6: whenever the relative-path computation succeeds, the destination key
computed by `uploadFile` contains no backslash; for base directory `/a/b`,
prefix `x` and file `/a/b/c\d.txt` the key is `x/c/d.txt`. -/
theorem destinationKey_no_backslash (keyPrefix baseDir filePath key : Str)
    (h : destinationKey keyPrefix baseDir filePath = some key) :
    backslash ∉ key
      ∧ destinationKey "x".toList "/a/b".toList ("/a/b/c".toList ++ backslash :: "d.txt".toList)
        = some "x/c/d.txt".toList := by
  refine ⟨?_, by decide⟩
  unfold destinationKey at h
  split at h
  · cases h
  · cases h
    exact replaceBackslash_clean _

/-- Instance of C6 at the file `/a/b/c\d.txt`. -/
theorem destinationKey_no_backslash_witness :
    backslash ∉ "x/c/d.txt".toList
      ∧ destinationKey "x".toList "/a/b".toList ("/a/b/c".toList ++ backslash :: "d.txt".toList)
        = some "x/c/d.txt".toList :=
  destinationKey_no_backslash "x".toList "/a/b".toList
    ("/a/b/c".toList ++ backslash :: "d.txt".toList) "x/c/d.txt".toList (by decide)

theorem Ext_xyz123 (stem : Str) : Ext (stem ++ ".xyz123".toList) = ".xyz123".toList := by
  simp [Ext, extScan]

/-- C8: the content type in the request `uploadFile` sends is the value of the
extension table for `filepath.Ext(filePath)` when that value is not empty and
`application/octet-stream` otherwise; it is never empty.  In particular it is
the default for a path without extension (the table has no entry for the empty
extension) and for the extension `.xyz123` when the table does not map it. -/
theorem contentType_sent (env : Env) (filePath bucketName keyPrefix baseDir : Str)
    (input : PutObjectInput)
    (h : putObjectInput env filePath bucketName keyPrefix baseDir = some input) :
    (env.typeByExtension (Ext filePath) ≠ [] →
        input.contentType = env.typeByExtension (Ext filePath))
      ∧ (env.typeByExtension (Ext filePath) = [] → input.contentType = defaultContentType)
      ∧ input.contentType ≠ []
      ∧ (Ext filePath = [] → env.typeByExtension [] = [] →
          input.contentType = defaultContentType)
      ∧ (env.typeByExtension ".xyz123".toList = [] → ∀ stem : Str,
          contentTypeOf env.typeByExtension (stem ++ ".xyz123".toList) = defaultContentType) := by
  have hct : input.contentType = contentTypeOf env.typeByExtension filePath := by
    unfold putObjectInput at h
    split at h
    · cases h
    · split at h
      · cases h
      · cases h
        rfl
  rw [hct]
  unfold contentTypeOf
  refine ⟨?_, ?_, ?_, ?_, ?_⟩
  · intro hne
    simp [hne]
  · intro he
    simp [he]
  · by_cases he : env.typeByExtension (Ext filePath) = []
    · simp only [he, if_true]
      decide
    · simp [he]
  · intro he hm
    simp [he, hm]
  · intro hm stem
    simp only [Ext_xyz123, hm, if_true]

/-- Instance of C8: `/d/data.json` is sent as `application/json`. -/
theorem contentType_sent_witness :
    (demoMime (Ext "/d/data.json".toList) ≠ [] →
        (PutObjectInput.mk "B".toList "up/data.json".toList "application/json".toList).contentType
          = demoMime (Ext "/d/data.json".toList))
      ∧ (PutObjectInput.mk "B".toList "up/data.json".toList
          "application/json".toList).contentType ≠ [] :=
  ⟨(contentType_sent (demoEnv []) "/d/data.json".toList "B".toList "up".toList "/d".toList
      ⟨"B".toList, "up/data.json".toList, "application/json".toList⟩ (by decide)).1,
    (contentType_sent (demoEnv []) "/d/data.json".toList "B".toList "up".toList "/d".toList
      ⟨"B".toList, "up/data.json".toList, "application/json".toList⟩ (by decide)).2.2.1⟩

/-- C9: `main` ends at the `log.Fatal` of line 97 if and only if the access
key, the secret key, the bucket or the folder is empty, whatever the values of
region, endpoint, prefix and worker count; and then nothing else has happened:
`session.NewSession` has not been called and the pipeline has not started. -/
theorem startup_validation (sessionFails : Config → Bool) (cfg : Config) :
    (startup sessionFails cfg = [StartupAction.fatalMissingParameters]
        ↔ (cfg.accessKeyId = [] ∨ cfg.secretAccessKey = [] ∨ cfg.bucket = [] ∨ cfg.folder = []))
      ∧ (StartupAction.fatalMissingParameters ∈ startup sessionFails cfg
        ↔ (cfg.accessKeyId = [] ∨ cfg.secretAccessKey = [] ∨ cfg.bucket = [] ∨ cfg.folder = []))
      ∧ (StartupAction.fatalMissingParameters ∈ startup sessionFails cfg →
          ∀ a ∈ startup sessionFails cfg, a = StartupAction.fatalMissingParameters) := by
  by_cases h : cfg.accessKeyId = [] ∨ cfg.secretAccessKey = [] ∨ cfg.bucket = [] ∨ cfg.folder = []
  · have hm : missingRequired cfg = true := by
      simp only [missingRequired, Bool.or_eq_true, decide_eq_true_eq]
      tauto
    simp [startup, hm, h]
  · have hm : missingRequired cfg = false := by
      simp only [not_or] at h
      simp [missingRequired, h]
    cases hs : sessionFails cfg <;> simp [startup, hm, hs, h]

/-! ## The control invariant is inductive -/

theorem sum_map_set (g : Worker → Nat) (w' : Worker) :
    ∀ (ws : List Worker) (i : Nat) (w : Worker), ws[i]? = some w →
      ((ws.set i w').map g).sum + g w = (ws.map g).sum + g w'
  | [], i, w, h => by simp at h
  | x :: xs, 0, w, h => by
    simp at h
    subst h
    simp
    omega
  | x :: xs, i + 1, w, h => by
    simp at h
    have := sum_map_set g w' xs i w h
    simp only [List.set_cons_succ, List.map_cons, List.sum_cons]
    omega

theorem le_sum_map (g : Worker → Nat) :
    ∀ (ws : List Worker) (i : Nat) (w : Worker), ws[i]? = some w → g w ≤ (ws.map g).sum
  | [], i, w, h => by simp at h
  | x :: xs, 0, w, h => by
    simp at h
    subst h
    simp
  | x :: xs, i + 1, w, h => by
    simp at h
    have := le_sum_map g xs i w h
    simp
    omega

theorem inv_init (r : Run) : Inv r (init r) := by
  constructor <;> simp [init, slotHolders, uploading, spawnPending, addPending, closerStarted,
    drained, leftLoop, draining]

theorem inv_streamFilesStep {r : Run} {s t : State} (h : Inv r s) (hs : streamFilesStep s = some t) :
    Inv r t := by
  obtain ⟨h1, h2, h3, h4, h5, h6, h7, h8, h9, h10, h11, h11b, h12, h13, h14⟩ := h
  unfold streamFilesStep at hs
  split at hs
  · cases hs
    constructor <;> simp_all
  · split at hs
    · cases hs
      constructor <;> simp_all
    · split at hs
      · cases hs
        constructor <;> simp_all
      · split at hs
        · cases hs
          constructor <;> simp_all [spawnPending, addPending, closerStarted, drained, leftLoop, draining]
        · cases hs
  · cases hs
    constructor <;> simp_all
  · split at hs
    · cases hs
      constructor <;> simp_all
    · cases hs
      constructor <;> simp_all
  · cases hs

theorem inv_mainStep {r : Run} {s t : State} (h : Inv r s) (hs : mainStep r s = some t) :
    Inv r t := by
  obtain ⟨h1, h2, h3, h4, h5, h6, h7, h8, h9, h10, h11, h11b, h12, h13, h14⟩ := h
  unfold mainStep at hs
  split at hs
  · split at hs
    · cases hs
      constructor <;>
        simp_all [spawnPending, addPending, closerStarted, drained, leftLoop, draining]
    · cases hs
  · cases hs
    constructor <;>
      simp_all [spawnPending, addPending, closerStarted, drained, leftLoop, draining]
  · split at hs
    · cases hs
      constructor <;>
        simp_all [spawnPending, addPending, closerStarted, drained, leftLoop, draining]
      all_goals omega
    · cases hs
  · cases hs
    constructor <;>
      simp_all [spawnPending, addPending, closerStarted, drained, leftLoop, draining,
        slotHolders, uploading, holdsSlot, inUpload]
  · cases hs
    constructor <;>
      simp_all [spawnPending, addPending, closerStarted, drained, leftLoop, draining]
  · split at hs
    · cases hs
      constructor <;>
        simp_all [spawnPending, addPending, closerStarted, drained, leftLoop, draining]
    · cases hs
  · split at hs
    · cases hs
      constructor <;>
        simp_all [spawnPending, addPending, closerStarted, drained, leftLoop, draining]
    · split at hs
      · cases hs
        constructor <;>
          simp_all [spawnPending, addPending, closerStarted, drained, leftLoop, draining]
      · cases hs
  · cases hs
    constructor <;>
      simp_all [spawnPending, addPending, closerStarted, drained, leftLoop, draining]
  · cases hs

theorem inv_closerStep {r : Run} {s t : State} (h : Inv r s) (hs : closerStep s = some t) :
    Inv r t := by
  obtain ⟨h1, h2, h3, h4, h5, h6, h7, h8, h9, h10, h11, h11b, h12, h13, h14⟩ := h
  unfold closerStep at hs
  split at hs
  · cases hs
  · split at hs
    · cases hs
      constructor <;> first | exact h13 | simp_all
    · cases hs
  · split at hs
    · cases hs
      constructor <;> first | exact h13 | simp_all
    · cases hs
      constructor <;> first | exact h13 | simp_all
  · cases hs

theorem inv_uploadStep {r : Run} {s t : State} {i : Nat} {w : Worker} (h : Inv r s)
    (hw : s.workers[i]? = some w) (hs : uploadStep r s i w = some t) : Inv r t := by
  obtain ⟨h1, h2, h3, h4, h5, h6, h7, h8, h9, h10, h11, h11b, h12, h13, h14⟩ := h
  have hle := le_sum_map inUpload s.workers i w hw
  have hle2 := le_sum_map holdsSlot s.workers i w hw
  simp only [slotHolders, uploading] at h1 h3
  unfold uploadStep at hs
  split at hs
  · rename_i hpc
    split at hs
    · cases hs
      have e1 := sum_map_set holdsSlot ⟨w.file, WorkerPc.wgDone⟩ s.workers i w hw
      have e2 := sum_map_set inUpload ⟨w.file, WorkerPc.wgDone⟩ s.workers i w hw
      simp only [holdsSlot, inUpload, hpc] at e1 e2 hle hle2
      constructor <;> simp_all [slotHolders, uploading]
      exact h13
    · cases hs
      rename_i e he
      have e1 := sum_map_set holdsSlot ⟨w.file, WorkerPc.sendErr e⟩ s.workers i w hw
      have e2 := sum_map_set inUpload ⟨w.file, WorkerPc.sendErr e⟩ s.workers i w hw
      simp only [holdsSlot, inUpload, hpc] at e1 e2 hle hle2
      constructor <;> simp_all [slotHolders, uploading]
      all_goals exact h13
  · rename_i e hpc
    have e1 := sum_map_set holdsSlot ⟨w.file, WorkerPc.wgDone⟩ s.workers i w hw
    have e2 := sum_map_set inUpload ⟨w.file, WorkerPc.wgDone⟩ s.workers i w hw
    simp only [holdsSlot, inUpload, hpc] at e1 e2 hle hle2
    split at hs
    · cases hs
      rename_i hc
      exfalso
      have := h5 (Or.inr (h6.mp hc))
      omega
    · split at hs
      · cases hs
        constructor <;> simp_all [slotHolders, uploading]
        all_goals exact h13
      · cases hs
  · rename_i hpc
    have e1 := sum_map_set holdsSlot ⟨w.file, WorkerPc.release⟩ s.workers i w hw
    have e2 := sum_map_set inUpload ⟨w.file, WorkerPc.release⟩ s.workers i w hw
    simp only [holdsSlot, inUpload, hpc] at e1 e2 hle hle2
    split at hs
    · cases hs
      exfalso
      omega
    · cases hs
      constructor <;> simp_all [slotHolders, uploading]
      all_goals first | exact h13 | omega
  · rename_i hpc
    have e1 := sum_map_set holdsSlot ⟨w.file, WorkerPc.finished⟩ s.workers i w hw
    have e2 := sum_map_set inUpload ⟨w.file, WorkerPc.finished⟩ s.workers i w hw
    simp only [holdsSlot, inUpload, hpc] at e1 e2 hle hle2
    split at hs
    · cases hs
    · cases hs
      constructor <;> simp_all [slotHolders, uploading]
      all_goals first | exact h13 | omega
  · cases hs

theorem inv_step {r : Run} {s t : State} {l : Label} (h : Inv r s) (hs : step r s l = some t) :
    Inv r t := by
  unfold step at hs
  split at hs
  · cases hs
  · cases l with
    | producer => exact inv_streamFilesStep h hs
    | main => exact inv_mainStep h hs
    | closer => exact inv_closerStep h hs
    | worker i =>
      simp only at hs
      split at hs
      · cases hs
      · rename_i w hw
        exact inv_uploadStep h hw hs

theorem inv_run {r : Run} : ∀ (sched : List Label) {s t : State}, Inv r s →
    run r sched s = some t → Inv r t
  | [], s, t, h, hs => by
    simp only [run, Option.some.injEq] at hs
    exact hs ▸ h
  | l :: ls, s, t, h, hs => by
    simp only [run] at hs
    split at hs
    · cases hs
    · rename_i u hu
      exact inv_run ls (inv_step h hu) hs

theorem inv_reachable {r : Run} {s : State} (h : Reachable r s) : Inv r s := by
  obtain ⟨sched, hs⟩ := h
  exact inv_run sched (inv_init r) hs

/-! ## Conservation of outcomes -/

theorem count_flatten_map (r : Run) (o : Outcome) : ∀ ws : List Worker,
    ((ws.map (pendingOutcome r)).flatten).count o = (ws.map (owes r o)).sum
  | [] => by simp
  | w :: ws => by simp [List.count_append, count_flatten_map r o ws, owes]

theorem count_accounted (r : Run) (s : State) (o : Outcome) :
    (accounted r s).count o
      = (outcomesOf s.out).count o + ((s.errCh.map Outcome.failure).count o
        + ((s.workers.map (owes r o)).sum
          + (((mainPending s.main).map (uploadOf r)).count o
            + ((producerPending s.producer).map (uploadOf r)).count o))) := by
  simp [accounted, List.count_append, count_flatten_map]

theorem accounted_streamFilesStep {r : Run} {s t : State} (hs : streamFilesStep s = some t)
    (o : Outcome) : (accounted r t).count o = (accounted r s).count o := by
  rw [count_accounted, count_accounted]
  unfold streamFilesStep at hs
  split at hs
  · cases hs
    rename_i hp
    simp [hp, producerPending, discovered]
  · rename_i e rest hp
    split at hs
    · cases hs
      rename_i he
      simp [hp, producerPending, discovered, he, outcomesOf, List.filterMap_append, eventOutcome]
    · rename_i he
      split at hs
      · cases hs
        rename_i hd
        simp [hp, producerPending, discovered, he, hd]
      · rename_i hd
        split at hs
        · cases hs
          rename_i hm
          simp [hp, hm, producerPending, mainPending, discovered, he, hd, List.count_cons]
          omega
        · cases hs
  · cases hs
    rename_i hp
    simp [hp, producerPending]
  · rename_i hp
    split at hs
    · cases hs
      rfl
    · cases hs
      simp [hp, producerPending]
  · cases hs

theorem accounted_mainStep {r : Run} {s t : State} (hs : mainStep r s = some t)
    (o : Outcome) : (accounted r t).count o = (accounted r s).count o := by
  rw [count_accounted, count_accounted]
  unfold mainStep at hs
  split at hs
  · rename_i hm
    split at hs
    · cases hs
      simp [hm, mainPending]
    · cases hs
  · rename_i f hm
    cases hs
    simp [hm, mainPending]
  · rename_i f hm
    split at hs
    · cases hs
      simp [hm, mainPending]
    · cases hs
  · rename_i f hm
    cases hs
    simp [hm, mainPending, owes, pendingOutcome, List.count_cons]
    omega
  · rename_i hm
    cases hs
    simp [hm, mainPending]
  · rename_i hm
    split at hs
    · cases hs
      simp [hm, mainPending]
    · cases hs
  · rename_i hm
    split at hs
    · cases hs
      rename_i e rest he
      simp [hm, he, mainPending, outcomesOf, List.filterMap_append, eventOutcome, List.count_cons]
      omega
    · split at hs
      · cases hs
        simp [hm, mainPending]
      · cases hs
  · rename_i hm
    cases hs
    simp [hm, mainPending, outcomesOf, List.filterMap_append, eventOutcome]
  · cases hs

theorem accounted_closerStep {r : Run} {s t : State} (hs : closerStep s = some t)
    (o : Outcome) : (accounted r t).count o = (accounted r s).count o := by
  unfold closerStep at hs
  split at hs
  · cases hs
  · split at hs
    · cases hs
      rfl
    · cases hs
  · split at hs
    · cases hs
      rfl
    · cases hs
      rfl
  · cases hs

theorem accounted_uploadStep {r : Run} {s t : State} {i : Nat} {w : Worker}
    (hw : s.workers[i]? = some w) (hs : uploadStep r s i w = some t) (o : Outcome) :
    (accounted r t).count o = (accounted r s).count o := by
  rw [count_accounted, count_accounted]
  unfold uploadStep at hs
  split at hs
  · rename_i hpc
    split at hs
    · rename_i file key hu
      cases hs
      have e1 := sum_map_set (owes r o) ⟨w.file, WorkerPc.wgDone⟩ s.workers i w hw
      have a1 : owes r o ⟨w.file, WorkerPc.wgDone⟩ = 0 := rfl
      have a2 : owes r o w = if Outcome.success file key = o then 1 else 0 := by
        simp [owes, pendingOutcome, hpc, uploadOf, hu, List.count_cons]
      simp [a1, a2, outcomesOf, List.filterMap_append, eventOutcome, List.count_cons] at e1 ⊢
      omega
    · rename_i e hu
      cases hs
      have e1 := sum_map_set (owes r o) ⟨w.file, WorkerPc.sendErr e⟩ s.workers i w hw
      have a1 : owes r o ⟨w.file, WorkerPc.sendErr e⟩
          = if Outcome.failure e = o then 1 else 0 := by
        simp [owes, pendingOutcome, List.count_cons]
      have a2 : owes r o w = if Outcome.failure e = o then 1 else 0 := by
        simp [owes, pendingOutcome, hpc, uploadOf, hu, List.count_cons]
      simp [a1, a2] at e1 ⊢
      omega
  · rename_i e hpc
    have e1 := sum_map_set (owes r o) ⟨w.file, WorkerPc.wgDone⟩ s.workers i w hw
    have a1 : owes r o ⟨w.file, WorkerPc.wgDone⟩ = 0 := rfl
    have a2 : owes r o w = if Outcome.failure e = o then 1 else 0 := by
      simp [owes, pendingOutcome, hpc, List.count_cons]
    split at hs
    · cases hs
      rfl
    · split at hs
      · cases hs
        simp [a1, a2, List.count_cons] at e1 ⊢
        omega
      · cases hs
  · rename_i hpc
    have e1 := sum_map_set (owes r o) ⟨w.file, WorkerPc.release⟩ s.workers i w hw
    have a1 : owes r o ⟨w.file, WorkerPc.release⟩ = 0 := rfl
    have a2 : owes r o w = 0 := by simp [owes, pendingOutcome, hpc]
    split at hs
    · cases hs
      rfl
    · cases hs
      simp [a1, a2] at e1 ⊢
      omega
  · rename_i hpc
    have e1 := sum_map_set (owes r o) ⟨w.file, WorkerPc.finished⟩ s.workers i w hw
    have a1 : owes r o ⟨w.file, WorkerPc.finished⟩ = 0 := rfl
    have a2 : owes r o w = 0 := by simp [owes, pendingOutcome, hpc]
    split at hs
    · cases hs
    · cases hs
      simp [a1, a2] at e1 ⊢
      omega
  · cases hs

theorem accounted_step {r : Run} {s t : State} {l : Label} (hs : step r s l = some t)
    (o : Outcome) : (accounted r t).count o = (accounted r s).count o := by
  unfold step at hs
  split at hs
  · cases hs
  · cases l with
    | producer => exact accounted_streamFilesStep hs o
    | main => exact accounted_mainStep hs o
    | closer => exact accounted_closerStep hs o
    | worker i =>
      simp only at hs
      split at hs
      · cases hs
      · rename_i w hw
        exact accounted_uploadStep hw hs o

theorem accounted_run {r : Run} (o : Outcome) : ∀ (sched : List Label) {s t : State},
    run r sched s = some t → (accounted r t).count o = (accounted r s).count o
  | [], s, t, hs => by
    simp only [run, Option.some.injEq] at hs
    rw [hs]
  | l :: ls, s, t, hs => by
    simp only [run] at hs
    split at hs
    · cases hs
    · rename_i u hu
      rw [accounted_run o ls hs, accounted_step hu]

/-! ## Consequences at the end of a run -/

theorem sum_map_le (f g : Worker → Nat) (h : ∀ w, f w ≤ g w) : ∀ ws : List Worker,
    (ws.map f).sum ≤ (ws.map g).sum
  | [] => by simp
  | w :: ws => by
    have := sum_map_le f g h ws
    have := h w
    simp only [List.map_cons, List.sum_cons]
    omega

theorem sum_map_zero (g : Worker → Nat) : ∀ ws : List Worker, (ws.map g).sum = 0 →
    ∀ w ∈ ws, g w = 0
  | [], _, w, hw => by simp at hw
  | x :: xs, h, w, hw => by
    simp only [List.map_cons, List.sum_cons] at h
    simp only [List.mem_cons] at hw
    rcases hw with hw | hw
    · subst hw
      omega
    · exact sum_map_zero g xs (by omega) w hw

theorem owes_le_inUpload (r : Run) (o : Outcome) (w : Worker) : owes r o w ≤ inUpload w := by
  cases w with
  | mk file pc =>
    cases pc <;> simp [owes, pendingOutcome, inUpload, List.count_cons] <;> split <;> simp

theorem uploadFile_path (env : Env) (f b p d : Str) : (uploadFile env f b p d).path = f := by
  unfold uploadFile
  split
  · rfl
  · split
    · rfl
    · split <;> rfl

theorem uploading_zero_of_drained {r : Run} {s : State} (h : Inv r s) (hd : drained s.main) :
    uploading s.workers = 0 ∧ addPending s.main = 0 := by
  have h1 := (h.drained_closed hd).1
  have h2 := h.closer_uwg (Or.inr (h.closed_iff.mp h1))
  have h3 := h.uwg_eq
  omega

theorem returned_of_drained {r : Run} {s : State} (h : Inv r s) (hd : drained s.main) :
    ∀ w ∈ s.workers, w.pc = WorkerPc.release ∨ w.pc = WorkerPc.finished := by
  intro w hw
  have h0 := sum_map_zero inUpload s.workers (uploading_zero_of_drained h hd).1 w hw
  unfold inUpload at h0
  split at h0 <;> simp_all
  rename_i h1 h2 h3
  cases hpc : w.pc <;> simp_all

theorem outcomes_of_completed {r : Run} {s : State} (hr : Reachable r s)
    (hd : Event.completed ∈ s.out) (o : Outcome) :
    (outcomesOf s.out).count o = ((discovered r.walk).map (uploadOf r)).count o := by
  have h := inv_reachable hr
  obtain ⟨sched, hs⟩ := hr
  have hc := accounted_run o sched hs
  have hm := h.completed_exited hd
  have hdr : drained s.main := by simp [hm, drained]
  have hz := uploading_zero_of_drained h hdr
  have hw : (s.workers.map (owes r o)).sum = 0 := by
    have := sum_map_le (owes r o) inUpload (owes_le_inUpload r o) s.workers
    have := hz.1
    unfold uploading at this
    omega
  have hp := h.closed_producer (h.loop_closed (by simp [hm, leftLoop]))
  have hpp : producerPending s.producer = [] := by
    rcases hp with hp | hp <;> simp [hp, producerPending]
  rw [count_accounted, count_accounted, hw, (h.drained_closed hdr).2, hm, hpp] at hc
  simpa [mainPending, init, outcomesOf, producerPending] using hc

theorem successLines_add_errorLines (p : Str) : ∀ out : List Event,
    successLines p out + errorLines p out
      = (outcomesOf out).countP (fun o => decide (o.path = p))
  | [] => rfl
  | ev :: out => by
    have ih := successLines_add_errorLines p out
    have e1 : ∀ f k, (Outcome.success f k).path = f := fun _ _ => rfl
    have e2 : ∀ e, (Outcome.failure e).path = e.file := fun _ => rfl
    simp only [successLines, errorLines, outcomesOf] at ih ⊢
    cases ev <;>
      simp [List.countP_cons, List.filterMap_cons, eventOutcome, e1, e2] <;> omega

theorem discovered_subset : ∀ (walk : List WalkEntry) (p : Str), p ∈ discovered walk →
    p ∈ walk.map WalkEntry.path
  | [], p, h => by simp [discovered] at h
  | x :: xs, p, h => by
    unfold discovered at h
    split at h
    · simp at h
    · split at h
      · simp [discovered_subset xs p h]
      · simp only [List.mem_cons] at h
        rcases h with h | h
        · simp [h]
        · simp [discovered_subset xs p h]

theorem count_discovered : ∀ (walk : List WalkEntry), (∀ e ∈ walk, e.err = false) →
    (walk.map WalkEntry.path).Nodup → ∀ e ∈ walk,
      (discovered walk).count e.path = if e.isDir then 0 else 1
  | [], _, _, e, he => by simp at he
  | x :: xs, herr, hnd, e, he => by
    simp only [List.map_cons, List.nodup_cons] at hnd
    have hx : x.err = false := herr x (by simp)
    have hnot : x.path ∉ discovered xs := fun h => hnd.1 (discovered_subset xs _ h)
    simp only [List.mem_cons] at he
    rcases he with he | he
    · subst he
      by_cases hd : e.isDir = true
      · simp [discovered, hx, hd, List.count_eq_zero.mpr hnot]
      · simp [discovered, hx, hd, List.count_cons, List.count_eq_zero.mpr hnot]
    · have ih := count_discovered xs (fun y hy => herr y (by simp [hy])) hnd.2 e he
      have hne : x.path ≠ e.path := by
        intro h
        exact hnd.1 (h ▸ List.mem_map_of_mem WalkEntry.path he)
      by_cases hd : x.isDir = true
      · simp [discovered, hx, hd, ih]
      · simp [discovered, hx, hd, List.count_cons, ih, hne]

/-- C1: in every reachable state of every run, whatever the capacity, the files
and the interleaving, the number of upload goroutines that have been started
and have not yet received from `sem` is at most the capacity. -/
theorem semaphore_bound (r : Run) (s : State) (h : Reachable r s) :
    slotHolders s.workers ≤ r.cap := by
  have hi := inv_reachable h
  have := hi.sem_eq
  have := hi.sem_le
  omega

/-- Instance of C1: one worker, the second upload holding the only slot. -/
theorem semaphore_bound_witness :
    slotHolders (stateAfter overlapRun overlapSched).workers ≤ overlapRun.cap :=
  semaphore_bound overlapRun (stateAfter overlapRun overlapSched) ⟨overlapSched, by decide⟩

/-- C2: in every reachable state in which `Upload completed.` has been printed,
every upload goroutine that was started is past the `wg.Done()` of its
`uploadFile` call: every `uploadFile` call that was started has returned. -/
theorem completed_after_workers (r : Run) (s : State) (h : Reachable r s)
    (hdone : Event.completed ∈ s.out) :
    ∀ w ∈ s.workers, w.pc = WorkerPc.release ∨ w.pc = WorkerPc.finished := by
  have hi := inv_reachable h
  have hm := hi.completed_exited hdone
  exact returned_of_drained hi (by simp [hm, drained])

/-- Instance of C2 at the end of `mixedRun`. -/
theorem completed_after_workers_witness :
    Event.completed ∈ (stateAfter mixedRun mixedSched).out
      ∧ ((Worker.mk "/d/b.txt".toList WorkerPc.finished).pc = WorkerPc.release
        ∨ (Worker.mk "/d/b.txt".toList WorkerPc.finished).pc = WorkerPc.finished) :=
  ⟨by decide,
    completed_after_workers mixedRun (stateAfter mixedRun mixedSched)
      ⟨mixedSched, by decide⟩ (by decide) ⟨"/d/b.txt".toList, WorkerPc.finished⟩ (by decide)⟩

/-- C3: for a walk without error over distinct paths, in every reachable state
in which `Upload completed.` has been printed, every non-directory entry of
the walk has exactly one printed outcome, a success line or an error line and
not both, and a directory has none. -/
theorem one_outcome_per_file (r : Run) (s : State) (hwalk : ∀ e ∈ r.walk, e.err = false)
    (hnodup : (r.walk.map WalkEntry.path).Nodup) (h : Reachable r s)
    (hdone : Event.completed ∈ s.out) :
    ∀ e ∈ r.walk,
      successLines e.path s.out + errorLines e.path s.out = if e.isDir then 0 else 1 := by
  intro e he
  have hperm : (outcomesOf s.out).Perm ((discovered r.walk).map (uploadOf r)) :=
    List.perm_iff_count.mpr (outcomes_of_completed h hdone)
  rw [successLines_add_errorLines, hperm.countP_eq, List.countP_map,
    ← count_discovered r.walk hwalk hnodup e he, List.count, List.countP_eq_length_filter,
    List.countP_eq_length_filter]
  congr 1
  apply List.filter_congr
  intro p _
  by_cases hp : p = e.path <;> simp [uploadOf, uploadFile_path, hp]

/-- Instance of C3 at the end of `mixedRun`. -/
theorem one_outcome_per_file_witness :
    successLines "/d/b.txt".toList (stateAfter mixedRun mixedSched).out = 0
      ∧ errorLines "/d/b.txt".toList (stateAfter mixedRun mixedSched).out = 1
      ∧ successLines "/d/b.txt".toList (stateAfter mixedRun mixedSched).out
          + errorLines "/d/b.txt".toList (stateAfter mixedRun mixedSched).out = 1 :=
  ⟨by decide, by decide,
    one_outcome_per_file mixedRun (stateAfter mixedRun mixedSched) (by decide) (by decide)
      ⟨mixedSched, by decide⟩ (by decide) (fileEntry "/d/b.txt") (by decide)⟩

/-- C4 fails on the code: with one worker and three files of which the first
two cannot be opened, the run reaches a state in which no goroutine can move
and `Upload completed.` has not been printed.  The second upload waits at
`errCh <-` with the buffer full while it holds the only slot of `sem`, and
`main` waits at `sem <-` for the third file. -/
theorem deadlock_reachable :
    Reachable deadRun deadState ∧ Stuck deadRun deadState ∧ deadState.main ≠ MainPc.exited
      ∧ Event.completed ∉ deadState.out := by
  refine ⟨⟨deadSched, by decide⟩, ?_, by decide, by decide⟩
  intro l
  cases l with
  | producer => decide
  | main => decide
  | closer => decide
  | worker i =>
    match i with
    | 0 => decide
    | 1 => decide
    | i + 2 => simp [step, deadState]

/-- C7 fails on the code: with one worker and the files `/d/a.txt`, which cannot
be opened, and `/d/b.txt`, the run reaches a state in which the error of
`/d/a.txt` has been read from `errCh` and printed while the upload of
`/d/b.txt` is still running.  The `wg.Wait()` of line 143 waits for
`streamFiles` alone, although the comment of line 142 announces a wait for all
goroutines; the uploads are counted by `uploadWg`. -/
theorem read_while_upload_running :
    Reachable overlapRun (stateAfter overlapRun overlapSched)
      ∧ (stateAfter overlapRun overlapSched).out
          = [Event.errorLine ⟨ErrKind.openFile, "/d/a.txt".toList⟩]
      ∧ (stateAfter overlapRun overlapSched).workers
          = [⟨"/d/a.txt".toList, WorkerPc.finished⟩, ⟨"/d/b.txt".toList, WorkerPc.running⟩] :=
  ⟨⟨overlapSched, by decide⟩, by decide, by decide⟩

/-- C10 (amended): a run that prints the completion marker exits with status 0
whether or not a failure was read from `errCh`, and what it has printed are the
results of `uploadFile` on the walked files, each once. -/
theorem exit_status_completed (r : Run) (s : State) (h : Reachable r s)
    (hdone : Event.completed ∈ s.out) :
    exitStatus s = some 0
      ∧ (outcomesOf s.out).Perm ((discovered r.walk).map (uploadOf r)) := by
  have hi := inv_reachable h
  refine ⟨?_, List.perm_iff_count.mpr (outcomes_of_completed h hdone)⟩
  simp [exitStatus, hi.no_panic, hi.completed_exited hdone]

/-- Instance of C10 (amended) at the end of `mixedRun`. -/
theorem exit_status_completed_witness :
    exitStatus (stateAfter mixedRun mixedSched) = some 0
      ∧ (outcomesOf (stateAfter mixedRun mixedSched).out).Perm
          ((discovered mixedRun.walk).map (uploadOf mixedRun)) :=
  exit_status_completed mixedRun (stateAfter mixedRun mixedSched) ⟨mixedSched, by decide⟩
    (by decide)

/-- C10 (as stated) fails: in `mixedRun` one of three files cannot be opened,
the run prints two success lines and one error line naming that file, and the
exit status is 0. -/
theorem exit_zero_with_failure :
    Reachable mixedRun (stateAfter mixedRun mixedSched)
      ∧ (stateAfter mixedRun mixedSched).out
          = [Event.uploaded "/d/a.txt".toList "up/a.txt".toList,
             Event.uploaded "/d/c.txt".toList "up/c.txt".toList,
             Event.errorLine ⟨ErrKind.openFile, "/d/b.txt".toList⟩,
             Event.completed]
      ∧ exitStatus (stateAfter mixedRun mixedSched) = some 0 :=
  ⟨⟨mixedSched, by decide⟩, by decide, by decide⟩

end S3Upload
